import Mathlib

/-!
Shallow embedding of `tools/snippetmanager/snippetmanager.go` (package main):
a snippet manager storing a `map[string]string` in memory, persisted as
pretty-printed JSON.  The Go map is modelled as an association list whose
list order stands for the map's (nondeterministic) iteration order; the
mapping itself is recovered through `lookupTab`.  File contents are lists of
characters, stdin is a list of lines (what `bufio.Scanner` yields, newlines
stripped), and each `fmt.Println`/`fmt.Printf` call is one element of an
output list.
-/

/-- The in-memory snippet table: Go's `map[string]string` as an association
list (name, body).  A well-formed Go map has pairwise distinct keys
(`NodupKeys` below). -/
abbrev Table := List (String × String)

/-- Go map read `m[k]`: the value stored under key `k`, if any. -/
def lookupTab : Table → String → Option String
  | [], _ => none
  | p :: rest, k => if p.1 = k then some p.2 else lookupTab rest k

/-- Go map write `m[k] = v`: replace the binding of `k` if present,
otherwise add it. -/
def upsert : Table → String → String → Table
  | [], k, v => [(k, v)]
  | p :: rest, k, v => if p.1 = k then (k, v) :: rest else p :: upsert rest k v

/-- Go `delete(m, k)`: remove the binding of `k`. -/
def eraseKey : Table → String → Table
  | [], _ => []
  | p :: rest, k => if p.1 = k then eraseKey rest k else p :: eraseKey rest k

/-- The key list of a table (`for k := range m`). -/
def keysOf (t : Table) : List String := t.map Prod.fst

/-- The Go-map well-formedness invariant: keys are pairwise distinct. -/
def NodupKeys (t : Table) : Prop := (keysOf t).Nodup

instance (t : Table) : Decidable (NodupKeys t) := by
  unfold NodupKeys; infer_instance

/-! ### Byte/codepoint-lexicographic string order

Go compares strings byte-wise (`<` on `string`, used both by `sort.Strings`
and by `encoding/json`'s map-key sort).  For UTF-8 encoded text the byte
order coincides with the lexicographic order on unicode code points, which
is what we define here, executably, on `String.data`. -/

/-- Strict lexicographic order on char lists by code point. -/
def charListLt : List Char → List Char → Bool
  | [], [] => false
  | [], _ :: _ => true
  | _ :: _, [] => false
  | a :: as, b :: bs =>
    if a.toNat < b.toNat then true
    else if b.toNat < a.toNat then false
    else charListLt as bs

/-- Go's `s < t` on strings (byte order = codepoint order for UTF-8). -/
def strLt (a b : String) : Bool := charListLt a.data b.data

/-- Go's `s <= t` on strings. -/
def strLe (a b : String) : Bool := !(strLt b a)

/-- `strLt` as a relation. -/
def StrLtRel (a b : String) : Prop := strLt a b = true

/-- `strLe` as a relation, for the sorting lemmas. -/
def StrLeRel (a b : String) : Prop := strLe a b = true

instance : DecidableRel StrLtRel := fun a b =>
  inferInstanceAs (Decidable (strLt a b = true))

instance : DecidableRel StrLeRel := fun a b =>
  inferInstanceAs (Decidable (strLe a b = true))

theorem charListLt_asymm (as bs : List Char) :
    charListLt as bs = true → charListLt bs as = false := by
  induction as generalizing bs with
  | nil => intro h; cases bs with
    | nil => simpa [charListLt] using h
    | cons b bs => simp [charListLt]
  | cons a as ih =>
    intro h
    cases bs with
    | nil => simp [charListLt] at h
    | cons b bs =>
      simp only [charListLt] at h ⊢
      by_cases h1 : a.toNat < b.toNat
      · simp [h1, Nat.lt_asymm h1, show ¬ b.toNat < a.toNat from Nat.lt_asymm h1]
      · by_cases h2 : b.toNat < a.toNat
        · simp [h1, h2] at h
        · simp only [h1, h2, if_neg, if_false] at h ⊢
          simp [h1, h2, ih bs h]

theorem charListLt_eq_of_not_lt (as bs : List Char) :
    charListLt as bs = false → charListLt bs as = false → as = bs := by
  induction as generalizing bs with
  | nil => intro h _; cases bs with
    | nil => rfl
    | cons b bs => simp [charListLt] at h
  | cons a as ih =>
    intro h1 h2
    cases bs with
    | nil => simp [charListLt] at h2
    | cons b bs =>
      simp only [charListLt] at h1 h2
      by_cases hab : a.toNat < b.toNat
      · simp [hab] at h1
      · by_cases hba : b.toNat < a.toNat
        · simp [hba] at h2
        · have hv : a.toNat = b.toNat := by omega
          have hc : a = b := by
            have := Char.ofNat_toNat a
            rw [hv, Char.ofNat_toNat b] at this
            exact this.symm
          rw [hc, ih bs (by simpa [hab, hba] using h1) (by simpa [hab, hba] using h2)]

theorem charListLt_trans (as bs cs : List Char) :
    charListLt as bs = true → charListLt bs cs = true → charListLt as cs = true := by
  induction as generalizing bs cs with
  | nil =>
    intro _ h2
    cases bs with
    | nil => cases cs with
      | nil => simp [charListLt] at h2
      | cons c cs => simp [charListLt]
    | cons b bs => cases cs with
      | nil => simp [charListLt] at h2
      | cons c cs => simp [charListLt]
  | cons a as ih =>
    intro h1 h2
    cases bs with
    | nil => simp [charListLt] at h1
    | cons b bs =>
      cases cs with
      | nil => simp [charListLt] at h2
      | cons c cs =>
        simp only [charListLt] at h1 h2 ⊢
        by_cases hab : a.toNat < b.toNat <;> by_cases hbc : b.toNat < c.toNat
        · simp [show a.toNat < c.toNat by omega]
        · by_cases hcb : c.toNat < b.toNat
          · simp [hab, hbc, hcb] at h2
          · have : b.toNat = c.toNat := by omega
            simp [show a.toNat < c.toNat by omega]
        · by_cases hba : b.toNat < a.toNat
          · simp [hab, hba] at h1
          · have : a.toNat = b.toNat := by omega
            simp [show a.toNat < c.toNat by omega]
        · by_cases hba : b.toNat < a.toNat
          · simp [hab, hba] at h1
          · by_cases hcb : c.toNat < b.toNat
            · simp [hbc, hcb] at h2
            · have hac : a.toNat = c.toNat := by omega
              have h1' : charListLt as bs = true := by simpa [hab, hba] using h1
              have h2' : charListLt bs cs = true := by simpa [hbc, hcb] using h2
              simp [show ¬ a.toNat < c.toNat by omega, show ¬ c.toNat < a.toNat by omega,
                ih bs cs h1' h2']

theorem strings_eq_of_data_eq (a b : String) : a.data = b.data → a = b := by
  cases a; cases b; intro h
  simp only [String.data] at h
  rw [h]

instance : IsTrans String StrLeRel := by
  constructor
  intro a b c hab hbc
  simp only [StrLeRel, strLe, Bool.not_eq_true', strLt] at hab hbc ⊢
  by_cases hca : charListLt c.data a.data = true
  · by_cases hcb : charListLt c.data b.data = true
    · rw [hcb] at hbc; cases hbc
    · by_cases hbcd : charListLt b.data c.data = true
      · have := charListLt_trans _ _ _ hbcd hca
        rw [this] at hab; cases hab
      · have hbc2 : b.data = c.data :=
          charListLt_eq_of_not_lt _ _ (by simpa using hbcd) (by simpa using hcb)
        rw [← hbc2] at hca
        rw [hca] at hab; cases hab
  · simpa using hca

instance : IsTotal String StrLeRel := by
  constructor
  intro a b
  simp only [StrLeRel, strLe, Bool.not_eq_true', strLt]
  by_cases h : charListLt b.data a.data = true
  · right; exact Bool.eq_false_iff.mpr (fun hc => by
      have := charListLt_asymm _ _ h; rw [hc] at this; cases this)
  · left; simpa using h

instance : IsAntisymm String StrLeRel := by
  constructor
  intro a b hab hba
  simp only [StrLeRel, strLe, Bool.not_eq_true', strLt] at hab hba
  exact strings_eq_of_data_eq a b (charListLt_eq_of_not_lt _ _ hba hab)

theorem strLt_of_le_of_ne (a b : String) (h : StrLeRel a b) (hne : a ≠ b) :
    StrLtRel a b := by
  simp only [StrLeRel, strLe, Bool.not_eq_true', strLt] at h
  simp only [StrLtRel, strLt]
  by_cases hl : charListLt a.data b.data = true
  · exact hl
  · exact absurd (strings_eq_of_data_eq a b
      (charListLt_eq_of_not_lt _ _ (by simpa using hl) h)) hne

/-- `sort.Strings` (and `encoding/json`'s key sort): sort in byte order. -/
def sortStrings (l : List String) : List String := List.insertionSort StrLeRel l

/-- The key order lifted to table entries, for `encoding/json`'s sorted
map serialisation. -/
def KeyLeRel (p q : String × String) : Prop := StrLeRel p.1 q.1

instance : DecidableRel KeyLeRel := fun p q =>
  inferInstanceAs (Decidable (StrLeRel p.1 q.1))

instance : IsTrans (String × String) KeyLeRel := by
  constructor; intro a b c h1 h2; exact Trans.trans (r := StrLeRel) h1 h2

instance : IsTotal (String × String) KeyLeRel := by
  constructor; intro a b; exact IsTotal.total (r := StrLeRel) a.1 b.1

/-- The entry list `encoding/json` serialises: table entries sorted by key. -/
def sortPairs (t : Table) : Table := List.insertionSort KeyLeRel t

/-! ### The snippet manager and its operations -/

/-- `SnippetManager` from the source: the persistence path and the
in-memory table. -/
structure SnippetManager where
  Filepath : String
  Snippets : Table

/-- `NewSnippetManager`: path `~/.config/micro/snippets.json` under the
`HOME` directory, empty in-memory table.  (The `MkdirAll` on the config
directory is file-system setup with no bearing on the table.) -/
def NewSnippetManager (home : String) : SnippetManager :=
  { Filepath := home ++ "/.config/micro/snippets.json", Snippets := [] }

/-- The body `Add` collects: `bufio.Scanner` lines up to (and excluding) the
first empty line — the loop `break`s on `line == ""` — joined by
`strings.Join(lines, "\n")`. -/
def snippetBody (stdin : List String) : String :=
  String.intercalate "\n" (stdin.takeWhile (fun l => l != ""))

/-- `Add`: store the body read from stdin under `name` (plain map
assignment, so an existing entry is silently overwritten). The prompt line
and the subsequent `Save` are handled at the `main` level of the model. -/
def SnippetManager.Add (sm : SnippetManager) (name : String)
    (stdin : List String) : SnippetManager :=
  { sm with Snippets := upsert sm.Snippets name (snippetBody stdin) }

/-- `Show`: the lines printed to stdout — the stored content verbatim, or
the not-found notice. -/
def SnippetManager.Show (sm : SnippetManager) (name : String) : List String :=
  match lookupTab sm.Snippets name with
  | some snippet => [snippet]
  | none => ["Snippet \x27" ++ name ++ "\x27 not found."]

/-- `Delete`: `(fmt.Errorf` message if the name is absent, resulting
manager`)`.  On the error path the table is untouched. -/
def SnippetManager.Delete (sm : SnippetManager) (name : String) :
    Option String × SnippetManager :=
  if lookupTab sm.Snippets name = none then
    (some ("Snippet \x27" ++ name ++ "\x27 not found"), sm)
  else
    (none, { sm with Snippets := eraseKey sm.Snippets name })

/-- `List`: the lines printed to stdout — the empty notice, or a header
followed by `- <name>` for each key in sorted order. -/
def SnippetManager.List (sm : SnippetManager) : List String :=
  if sm.Snippets.length = 0 then ["No snippets saved."]
  else "Saved snippets:" ::
    (sortStrings (keysOf sm.Snippets)).map (fun k => "- " ++ k)

/-! ### Table lemmas -/

theorem lookupTab_upsert_self (t : Table) (k v : String) :
    lookupTab (upsert t k v) k = some v := by
  induction t with
  | nil => simp [upsert, lookupTab]
  | cons p rest ih =>
    by_cases h : p.1 = k
    · simp [upsert, h, lookupTab]
    · simp [upsert, h, lookupTab, ih]

theorem lookupTab_upsert_other (t : Table) (k v k' : String) (h : k' ≠ k) :
    lookupTab (upsert t k v) k' = lookupTab t k' := by
  have hkk : ¬ (k = k') := fun hh => h hh.symm
  induction t with
  | nil => simp [upsert, lookupTab, hkk]
  | cons p rest ih =>
    by_cases hp : p.1 = k
    · have hp' : ¬ (p.1 = k') := by rw [hp]; exact hkk
      simp [upsert, hp, lookupTab, hkk, hp']
    · simp [upsert, hp, lookupTab, ih]

theorem lookupTab_eraseKey_self (t : Table) (k : String) :
    lookupTab (eraseKey t k) k = none := by
  induction t with
  | nil => simp [eraseKey, lookupTab]
  | cons p rest ih =>
    by_cases h : p.1 = k
    · simp [eraseKey, h, ih]
    · simp [eraseKey, h, lookupTab, ih]

theorem lookupTab_eraseKey_other (t : Table) (k k' : String) (h : k' ≠ k) :
    lookupTab (eraseKey t k) k' = lookupTab t k' := by
  induction t with
  | nil => simp [eraseKey]
  | cons p rest ih =>
    by_cases hp : p.1 = k
    · have hp' : ¬ (p.1 = k') := by rw [hp]; exact fun hh => h hh.symm
      have hkk : ¬ (k = k') := fun hh => h hh.symm
      simp [eraseKey, hp, lookupTab, hp', hkk, ih]
    · simp [eraseKey, hp, lookupTab, ih]

theorem takeWhile_until_blank (pre post : List String) (h : "" ∉ pre) :
    (pre ++ "" :: post).takeWhile (fun l => l != "") = pre := by
  induction pre with
  | nil => simp [List.takeWhile]
  | cons x rest ih =>
    have hx : x ≠ "" := fun hh => h (hh ▸ List.mem_cons_self x rest)
    have hr : "" ∉ rest := fun hh => h (List.mem_cons_of_mem x hh)
    have hb : (x != "") = true := by simpa using hx
    simp only [List.cons_append, List.takeWhile, hb, List.append_eq]
    rw [ih hr]

/-! ### Sorting lemmas -/

theorem sortStrings_perm (l : List String) : (sortStrings l).Perm l :=
  List.perm_insertionSort _ l

theorem sortStrings_sorted (l : List String) :
    List.Pairwise StrLeRel (sortStrings l) :=
  List.sorted_insertionSort _ l

theorem sortStrings_strict (l : List String) (h : l.Nodup) :
    List.Pairwise StrLtRel (sortStrings l) := by
  have hnd : (sortStrings l).Nodup := ((sortStrings_perm l).nodup_iff).mpr h
  have hle := sortStrings_sorted l
  exact (hle.and hnd).imp (fun hab => strLt_of_le_of_ne _ _ hab.1 hab.2)

/-! ### Claims about the in-memory operations -/

/-- C2: `Add(x)` stores the input lines up to but excluding the first empty
line, joined with a single newline character, and an immediately following
`Show(x)` outputs exactly that stored body. -/
theorem add_then_show (sm : SnippetManager) (name : String)
    (pre post : List String) (hpre : "" ∉ pre) :
    lookupTab (sm.Add name (pre ++ "" :: post)).Snippets name
      = some (String.intercalate "\n" pre) ∧
    (sm.Add name (pre ++ "" :: post)).Show name
      = [String.intercalate "\n" pre] := by
  have hbody : snippetBody (pre ++ "" :: post) = String.intercalate "\n" pre := by
    rw [snippetBody, takeWhile_until_blank pre post hpre]
  have hl : lookupTab (sm.Add name (pre ++ "" :: post)).Snippets name
      = some (String.intercalate "\n" pre) := by
    simp [SnippetManager.Add, hbody, lookupTab_upsert_self]
  exact ⟨hl, by simp [SnippetManager.Show, hl]⟩

/-- Witness for `add_then_show`, at the spec §8 example (`add greet` with
input `["hello", "world", ""]` stores `"hello\nworld"`). -/
theorem add_then_show_witness :
    lookupTab ((NewSnippetManager "/home/u").Add "greet"
        (["hello", "world"] ++ "" :: [])).Snippets "greet"
      = some "hello\nworld" ∧
    ((NewSnippetManager "/home/u").Add "greet"
        (["hello", "world"] ++ "" :: [])).Show "greet" = ["hello\nworld"] := by
  have h := add_then_show (NewSnippetManager "/home/u") "greet"
    ["hello", "world"] [] (by decide)
  rw [show String.intercalate "\n" ["hello", "world"] = "hello\nworld" from by decide] at h
  exact h

/-- C3: `Delete` on an absent name fails with the not-found error and leaves
the table unchanged; on a present name it removes exactly that entry, so a
subsequent `Show` reports not-found. -/
theorem delete_spec (sm : SnippetManager) (name : String) :
    (lookupTab sm.Snippets name = none →
      (sm.Delete name).1 = some ("Snippet \x27" ++ name ++ "\x27 not found") ∧
      (sm.Delete name).2 = sm) ∧
    (∀ v, lookupTab sm.Snippets name = some v →
      (sm.Delete name).1 = none ∧
      lookupTab (sm.Delete name).2.Snippets name = none ∧
      (∀ k, k ≠ name →
        lookupTab (sm.Delete name).2.Snippets k = lookupTab sm.Snippets k) ∧
      (sm.Delete name).2.Show name
        = ["Snippet \x27" ++ name ++ "\x27 not found."]) := by
  constructor
  · intro h
    simp [SnippetManager.Delete, h]
  · intro v hv
    have hs : ¬ (lookupTab sm.Snippets name = none) := by rw [hv]; simp
    refine ⟨by simp [SnippetManager.Delete, hs], ?_, ?_, ?_⟩
    · simp [SnippetManager.Delete, hs, lookupTab_eraseKey_self]
    · intro k hk
      simp [SnippetManager.Delete, hs, lookupTab_eraseKey_other _ _ _ hk]
    · simp [SnippetManager.Show, SnippetManager.Delete, hs, lookupTab_eraseKey_self]

/-- Witness for `delete_spec`: both branches at a concrete one-entry table. -/
theorem delete_spec_witness :
    ((SnippetManager.mk "p" [("a", "1")]).Delete "b").1
      = some "Snippet \x27b\x27 not found" ∧
    ((SnippetManager.mk "p" [("a", "1")]).Delete "b").2
      = SnippetManager.mk "p" [("a", "1")] ∧
    ((SnippetManager.mk "p" [("a", "1")]).Delete "a").1 = none ∧
    lookupTab ((SnippetManager.mk "p" [("a", "1")]).Delete "a").2.Snippets "a" = none ∧
    ((SnippetManager.mk "p" [("a", "1")]).Delete "a").2.Show "a"
      = ["Snippet \x27a\x27 not found."] := by
  have habs := (delete_spec (SnippetManager.mk "p" [("a", "1")]) "b").1 (by decide)
  have hpres := (delete_spec (SnippetManager.mk "p" [("a", "1")]) "a").2 "1" (by decide)
  exact ⟨habs.1, habs.2, hpres.1, hpres.2.1, hpres.2.2.2⟩

/-- C4: performing `Add(name)` twice with different bodies leaves the table
mapping `name` to the second body only, with no other entry touched. -/
theorem add_twice_overwrites (sm : SnippetManager) (name : String)
    (in1 in2 : List String) (hneq : snippetBody in1 ≠ snippetBody in2) :
    lookupTab ((sm.Add name in1).Add name in2).Snippets name
      = some (snippetBody in2) ∧
    lookupTab ((sm.Add name in1).Add name in2).Snippets name
      ≠ some (snippetBody in1) ∧
    (∀ k, k ≠ name →
      lookupTab ((sm.Add name in1).Add name in2).Snippets k
        = lookupTab sm.Snippets k) := by
  have h2 : lookupTab ((sm.Add name in1).Add name in2).Snippets name
      = some (snippetBody in2) := by
    simp [SnippetManager.Add, lookupTab_upsert_self]
  refine ⟨h2, by rw [h2]; simp; exact fun hh => hneq hh.symm, ?_⟩
  intro k hk
  simp [SnippetManager.Add, lookupTab_upsert_other _ _ _ _ hk,
    lookupTab_upsert_other _ _ _ _ hk]

/-- Witness for `add_twice_overwrites` at concrete bodies `"a"` then `"b"`. -/
theorem add_twice_overwrites_witness :
    lookupTab (((SnippetManager.mk "p" [("z", "0")]).Add "x" ["a", ""]).Add "x"
        ["b", ""]).Snippets "x" = some (snippetBody ["b", ""]) ∧
    lookupTab (((SnippetManager.mk "p" [("z", "0")]).Add "x" ["a", ""]).Add "x"
        ["b", ""]).Snippets "z" = some "0" := by
  have h := add_twice_overwrites (SnippetManager.mk "p" [("z", "0")]) "x"
    ["a", ""] ["b", ""] (by decide)
  exact ⟨h.1, by rw [h.2.2 "z" (by decide)]; decide⟩

/-- C5: `List` on an empty table prints exactly the no-snippets notice; on a
non-empty table it prints a header and `- <name>` per entry, the names in
strictly ascending byte/codepoint-lexicographic order, one line per key. -/
theorem list_spec (sm : SnippetManager) (h : NodupKeys sm.Snippets) :
    (sm.Snippets = [] → sm.List = ["No snippets saved."]) ∧
    (sm.Snippets ≠ [] →
      sm.List = "Saved snippets:" ::
        (sortStrings (keysOf sm.Snippets)).map (fun k => "- " ++ k) ∧
      (sortStrings (keysOf sm.Snippets)).Perm (keysOf sm.Snippets) ∧
      List.Pairwise StrLtRel (sortStrings (keysOf sm.Snippets))) := by
  constructor
  · intro he; simp [SnippetManager.List, he]
  · intro hne
    have hlen : ¬ (sm.Snippets.length = 0) := by simpa using hne
    exact ⟨by simp [SnippetManager.List, hlen], sortStrings_perm _,
      sortStrings_strict _ h⟩

/-- Witness for `list_spec`: empty table, and a two-entry table given in
reverse order. -/
theorem list_spec_witness :
    (SnippetManager.mk "p" []).List = ["No snippets saved."] ∧
    (SnippetManager.mk "p" [("b", "2"), ("a", "1")]).List
      = "Saved snippets:" ::
        (sortStrings (keysOf [("b", "2"), ("a", "1")])).map (fun k => "- " ++ k) ∧
    List.Pairwise StrLtRel (sortStrings (keysOf [("b", "2"), ("a", "1")])) := by
  have h1 := (list_spec (SnippetManager.mk "p" []) (by decide)).1 rfl
  have h2 := (list_spec (SnippetManager.mk "p" [("b", "2"), ("a", "1")])
    (by decide)).2 (by decide)
  exact ⟨h1, h2.1, h2.2.2⟩

/-- C10: `List` is deterministic — its output depends only on the mapping,
not on the underlying map's iteration order: permuting the association list
leaves the output unchanged, because the names are sorted before printing. -/
theorem list_deterministic (sm1 sm2 : SnippetManager)
    (h : sm1.Snippets.Perm sm2.Snippets) : sm1.List = sm2.List := by
  have hk : (keysOf sm1.Snippets).Perm (keysOf sm2.Snippets) := h.map Prod.fst
  have hs : sortStrings (keysOf sm1.Snippets) = sortStrings (keysOf sm2.Snippets) :=
    List.eq_of_perm_of_sorted
      (((sortStrings_perm _).trans hk).trans (sortStrings_perm _).symm)
      (sortStrings_sorted _) (sortStrings_sorted _)
  have hlen : sm1.Snippets.length = sm2.Snippets.length := h.length_eq
  simp [SnippetManager.List, hlen, hs]

/-- Witness for `list_deterministic`: the same two-entry map in both
iteration orders. -/
theorem list_deterministic_witness :
    (SnippetManager.mk "p" [("b", "2"), ("a", "1")]).List
      = (SnippetManager.mk "q" [("a", "1"), ("b", "2")]).List :=
  list_deterministic _ _ (by decide)

/-! ### JSON serialisation: `encoding/json` on `map[string]string`

`Save` calls `json.MarshalIndent(m, "", "  ")`: map keys sorted byte-wise,
the object pretty-printed with two-space indentation and `": "` after each
key, string values escaped with the encoder's default HTML escaping.
`Load` calls `json.Unmarshal` into the manager's map, which for a
`map[string]string` target accepts, surrounded by optional whitespace:
a JSON object whose member values are strings or `null` (a `null` value
stores the zero string, later duplicate keys overwrite earlier ones, and
the members are merged into the existing map), or the top-level literal
`null`, which sets the map itself to its zero value; anything else is an
error.  Both directions are modelled character-exactly below, including
the scanner's rejection of raw control characters inside string literals
and the decoder's surrogate-pair handling; raw invalid UTF-8 byte
sequences are not representable in a `Char` model. -/

/-- File content: the bytes of the persistence file, as characters. -/
abbrev FileContent := List Char

/-- Lowercase hex digit, `encoding/json`'s `hex = "0123456789abcdef"`. -/
def hexDigit : Nat → Char
  | 0 => '0' | 1 => '1' | 2 => '2' | 3 => '3' | 4 => '4'
  | 5 => '5' | 6 => '6' | 7 => '7' | 8 => '8' | 9 => '9'
  | 10 => 'a' | 11 => 'b' | 12 => 'c' | 13 => 'd' | 14 => 'e' | 15 => 'f'
  | _ => '0'

/-- Value of one hex digit (either case), for the `\uXXXX` decoder. -/
def hexVal (c : Char) : Option Nat :=
  if '0' ≤ c ∧ c ≤ '9' then some (c.toNat - 48)
  else if 'a' ≤ c ∧ c ≤ 'f' then some (c.toNat - 87)
  else if 'A' ≤ c ∧ c ≤ 'F' then some (c.toNat - 55)
  else none

/-- The Go JSON encoder's escaping of one character (`appendString` with
`escapeHTML = true`): `"`, `\`, newline, carriage return and tab get
two-character escapes; other control characters and the HTML-sensitive
`<` `>` `&` get `\u00XX`; U+2028/U+2029 get `\u202X`; everything else is
emitted literally. -/
def escapeChar (c : Char) : List Char :=
  if c = '"' then ['\\', '"']
  else if c = '\\' then ['\\', '\\']
  else if c = '\n' then ['\\', 'n']
  else if c = '\r' then ['\\', 'r']
  else if c = '\t' then ['\\', 't']
  else if c.toNat < 32 ∨ c = '<' ∨ c = '>' ∨ c = '&' then
    ['\\', 'u', '0', '0', hexDigit (c.toNat / 16), hexDigit (c.toNat % 16)]
  else if c.toNat = 8232 ∨ c.toNat = 8233 then
    ['\\', 'u', '2', '0', '2', hexDigit (c.toNat % 16)]
  else [c]

/-- Escaped body of a string literal. -/
def escBody (l : List Char) : List Char := l.flatMap escapeChar

/-- A serialised JSON string literal. -/
def encodeString (s : String) : List Char := '"' :: escBody s.data ++ ['"']

/-- The character for a decoded `\uXXXX` code: the scalar value itself when
valid, otherwise U+FFFD (as Go substitutes for stray surrogates). -/
def charOfCode (n : Nat) : Char :=
  if h : n.isValidChar then Char.ofNatAux n h else '�'

/-- The decoder's single-character escapes. -/
def unescapeChar (e : Char) : Option Char :=
  if e = '"' then some '"'
  else if e = '\\' then some '\\'
  else if e = '/' then some '/'
  else if e = 'b' then some (Char.ofNat 8)
  else if e = 'f' then some (Char.ofNat 12)
  else if e = 'n' then some '\n'
  else if e = 'r' then some '\r'
  else if e = 't' then some '\t'
  else none

/-- The value of four hex digits, as read by Go's `getu4`. -/
def hex4 (h1 h2 h3 h4 : Char) : Option Nat :=
  match hexVal h1, hexVal h2, hexVal h3, hexVal h4 with
  | some a, some b, some c, some d => some (((a * 16 + b) * 16 + c) * 16 + d)
  | _, _, _, _ => none

/-- The value of a second `\uXXXX` escape at the head of `l`, for
surrogate-pair lookahead (Go's `getu4` at the resume position). -/
def pairVal (l : List Char) : Option Nat :=
  match l with
  | e2 :: u2 :: g1 :: g2 :: g3 :: g4 :: _ =>
    if e2 = '\\' ∧ u2 = 'u' then hex4 g1 g2 g3 g4 else none
  | _ => none

/-- Combined code point of a well-formed surrogate pair: the first value
must be a high surrogate and the next escape a low surrogate, as in
`utf16.DecodeRune`; `none` whenever the pair is not well formed. -/
def surrPair (n : Nat) (l : List Char) : Option Nat :=
  if 55296 ≤ n ∧ n ≤ 56319 then
    match pairVal l with
    | some m =>
      if 56320 ≤ m ∧ m ≤ 57343 then
        some (65536 + (n - 55296) * 1024 + (m - 56320))
      else none
    | none => none
  else none

mutual

/-- Decode a string-literal body up to the closing quote; returns the
decoded characters and the input after the quote.  Raw control characters
(bytes below 0x20) are a syntax error, as in Go's scanner.  A `\uXXXX`
escape in the surrogate range follows Go's `unquoteBytes` (see `decodeU`):
a well-formed high/low pair yields the combined code point and consumes
both escapes; otherwise U+FFFD is emitted for the first escape and
scanning resumes right after it.  The mutual functions cover one
character, one backslash escape, one `\u` escape, and the second escape
of a consumed pair. -/
def decodeBody : List Char → Option (List Char × List Char)
  | [] => none
  | c :: rest =>
    if c = '"' then some ([], rest)
    else if c = '\\' then decodeEsc rest
    else if c.toNat < 32 then none
    else (decodeBody rest).map (fun p => (c :: p.1, p.2))

/-- Decode what follows a backslash. -/
def decodeEsc : List Char → Option (List Char × List Char)
  | [] => none
  | e :: rest2 =>
    if e = 'u' then decodeU rest2
    else
      match unescapeChar e with
      | some d => (decodeBody rest2).map (fun p => (d :: p.1, p.2))
      | none => none

/-- Decode the four hex digits of a `\u` escape and dispatch on whether the
value is a surrogate. -/
def decodeU : List Char → Option (List Char × List Char)
  | h1 :: h2 :: h3 :: h4 :: rest3 =>
    match hex4 h1 h2 h3 h4 with
    | some n =>
      if 55296 ≤ n ∧ n ≤ 57343 then
        match surrPair n rest3 with
        | some code => decodeUPair code rest3
        | none => (decodeBody rest3).map (fun p => ('�' :: p.1, p.2))
      else (decodeBody rest3).map (fun p => (charOfCode n :: p.1, p.2))
    | none => none
  | _ => none

/-- Skip the six characters of the low-surrogate escape (already validated
by `surrPair`) and emit the combined code point. -/
def decodeUPair (code : Nat) : List Char → Option (List Char × List Char)
  | _ :: _ :: _ :: _ :: _ :: _ :: rest4 =>
    (decodeBody rest4).map (fun p => (charOfCode code :: p.1, p.2))
  | _ => none

end

/-- JSON whitespace (RFC 8259, what Go's scanner skips). -/
def isWs (c : Char) : Bool := c = ' ' || c = '\n' || c = '\t' || c = '\r'

/-- Skip leading whitespace. -/
def skipWs (l : List Char) : List Char := l.dropWhile isWs

/-- One indented member line of `MarshalIndent` output (without the
separator): two spaces of indentation, the key literal, `": "`, the value
literal. -/
def encodeEntry (k v : String) : List Char :=
  ' ' :: ' ' :: encodeString k ++ ':' :: ' ' :: encodeString v

/-- The member lines of a non-empty object, from the first entry to the
closing brace: entries separated by `",\n"`, then `"\n}"`. -/
def emitEntries : Table → List Char
  | [] => []
  | (k, v) :: rest =>
    encodeEntry k v ++
      (match rest with
       | [] => '\n' :: '}' :: []
       | _ :: _ => ',' :: '\n' :: emitEntries rest)

/-- `json.MarshalIndent(m, "", "  ")`: `{}` for the empty map, otherwise
the entries in sorted key order, pretty-printed. -/
def marshalIndent (t : Table) : List Char :=
  match sortPairs t with
  | [] => ['{', '}']
  | e :: es => '{' :: '\n' :: emitEntries (e :: es)

/-- `Save`: serialise the in-memory table (the resulting file content;
`ioutil.WriteFile` then replaces the file with exactly these bytes). -/
def SnippetManager.Save (sm : SnippetManager) : FileContent :=
  marshalIndent sm.Snippets

/-- Members of a JSON object, positioned at (whitespace before) the first
key; fuel bounds the recursion, one unit per member.  A member value is a
string literal or the literal `null`; for a `map[string]string` target
Go's decoder leaves the freshly allocated element untouched on `null`, so
a `null` value stores the empty string. -/
def parseMembers : Nat → List Char → Option (Table × List Char)
  | 0, _ => none
  | fuel + 1, l =>
    match skipWs l with
    | [] => none
    | c :: rest =>
      if c = '"' then
        match decodeBody rest with
        | none => none
        | some (k, r1) =>
          match skipWs r1 with
          | [] => none
          | c1 :: r2 =>
            if c1 = ':' then
              match skipWs r2 with
              | [] => none
              | c2 :: r3 =>
                if c2 = '"' then
                  match decodeBody r3 with
                  | none => none
                  | some (v, r4) =>
                    match skipWs r4 with
                    | [] => none
                    | c3 :: r5 =>
                      if c3 = ',' then
                        (parseMembers fuel r5).map
                          (fun p => ((String.mk k, String.mk v) :: p.1, p.2))
                      else if c3 = '}' then some ([(String.mk k, String.mk v)], r5)
                      else none
                else if c2 = 'n' then
                  match r3 with
                  | d1 :: d2 :: d3 :: r4 =>
                    if d1 = 'u' ∧ d2 = 'l' ∧ d3 = 'l' then
                      match skipWs r4 with
                      | [] => none
                      | c3 :: r5 =>
                        if c3 = ',' then
                          (parseMembers fuel r5).map
                            (fun p => ((String.mk k, "") :: p.1, p.2))
                        else if c3 = '}' then some ([(String.mk k, "")], r5)
                        else none
                    else none
                  | _ => none
                else none
            else none
      else none

/-- `json.Unmarshal` for a `map[string]string` target, object case: a JSON
object of string (or `null`) members with nothing but whitespace around
it; the raw member list in source order (duplicates included).  The other
content `Unmarshal` accepts for this target, a top-level `null`, is
recognised by `isNullDoc` below. -/
def parseObj (l : List Char) : Option Table :=
  match skipWs l with
  | [] => none
  | c :: rest =>
    if c = '{' then
      match skipWs rest with
      | [] => none
      | c2 :: r2 =>
        if c2 = '}' then (if skipWs r2 = [] then some [] else none)
        else
          match parseMembers (rest.length + 1) rest with
          | some (es, r) => if skipWs r = [] then some es else none
          | none => none
    else none

/-- The JSON literal `null` surrounded by optional whitespace.
`json.Unmarshal` accepts it for a `map[string]string` target without
error: `literalStore` sets the map itself to its zero value (nil). -/
def isNullDoc (l : List Char) : Bool :=
  match skipWs l with
  | c1 :: c2 :: c3 :: c4 :: rest =>
    c1 == 'n' && c2 == 'u' && c3 == 'l' && c4 == 'l' && (skipWs rest).isEmpty
  | _ => false

/-- `Load`'s failure: `json.Unmarshal` rejected the file content.  (Read
errors other than not-exist are I/O faults outside the pure model.) -/
inductive LoadError where
  | parseError
deriving DecidableEq

/-- `Load`: a missing file resets the table to empty and succeeds;
otherwise the content must unmarshal: the literal `null` sets the map to
nil (so the table is empty), and an object's members are merged into the
existing map in order (Go's `Unmarshal` adds to a non-nil map). -/
def SnippetManager.Load (sm : SnippetManager) (file : Option FileContent) :
    Except LoadError SnippetManager :=
  match file with
  | none => .ok { sm with Snippets := [] }
  | some data =>
    if isNullDoc data then .ok { sm with Snippets := [] }
    else
      match parseObj data with
      | some es =>
        .ok { sm with Snippets := es.foldl (fun acc p => upsert acc p.1 p.2) sm.Snippets }
      | none => .error .parseError

/-! ### The decoder inverts the encoder (string literals) -/

theorem hexVal_hexDigit : ∀ n, n < 16 → hexVal (hexDigit n) = some n := by decide

theorem charOfCode_toNat (c : Char) : charOfCode c.toNat = c := by
  have hv : c.toNat.isValidChar := c.valid
  have h := Char.ofNat_toNat c
  rw [Char.ofNat, dif_pos hv] at h
  rw [charOfCode, dif_pos hv]
  exact h

theorem decodeBody_quote (rest : List Char) :
    decodeBody ('"' :: rest) = some ([], rest) := by
  rw [decodeBody.eq_def]
  simp

theorem decodeBody_plain (c : Char) (rest : List Char) (h1 : ¬ c = '"')
    (h2 : ¬ c = '\\') (h3 : ¬ c.toNat < 32) :
    decodeBody (c :: rest) = (decodeBody rest).map (fun p => (c :: p.1, p.2)) := by
  rw [decodeBody.eq_def]
  simp only []
  rw [if_neg h1, if_neg h2, if_neg h3]

theorem decodeBody_backslash (rest : List Char) :
    decodeBody ('\\' :: rest) = decodeEsc rest := by
  rw [decodeBody.eq_def]
  simp only [reduceIte]
  rw [if_neg (show ¬ ('\\' : Char) = '"' by decide)]

theorem decodeBody_esc (e d : Char) (rest : List Char) (hu : ¬ e = 'u')
    (hd : unescapeChar e = some d) :
    decodeBody ('\\' :: e :: rest)
      = (decodeBody rest).map (fun p => (d :: p.1, p.2)) := by
  rw [decodeBody_backslash, decodeEsc.eq_def]
  simp only []
  rw [if_neg hu, hd]

theorem decodeBody_hex (h1 h2 h3 h4 : Char) (n : Nat) (rest : List Char)
    (hv : hex4 h1 h2 h3 h4 = some n) (hns : ¬ (55296 ≤ n ∧ n ≤ 57343)) :
    decodeBody ('\\' :: 'u' :: h1 :: h2 :: h3 :: h4 :: rest)
      = (decodeBody rest).map (fun p => (charOfCode n :: p.1, p.2)) := by
  rw [decodeBody_backslash, decodeEsc.eq_def]
  simp only [reduceIte]
  rw [decodeU.eq_def]
  simp only []
  rw [hv]
  simp only [if_neg hns]

theorem decodeBody_escapeChar (c : Char) (rest : List Char) :
    decodeBody (escapeChar c ++ rest)
      = (decodeBody rest).map (fun p => (c :: p.1, p.2)) := by
  by_cases h1 : c = '"'
  · subst h1
    rw [show escapeChar '"' = ['\\', '"'] from by decide]
    exact decodeBody_esc _ _ _ (by decide) (by decide)
  by_cases h2 : c = '\\'
  · subst h2
    rw [show escapeChar '\\' = ['\\', '\\'] from by decide]
    exact decodeBody_esc _ _ _ (by decide) (by decide)
  by_cases h3 : c = '\n'
  · subst h3
    rw [show escapeChar '\n' = ['\\', 'n'] from by decide]
    exact decodeBody_esc _ _ _ (by decide) (by decide)
  by_cases h4 : c = '\r'
  · subst h4
    rw [show escapeChar '\r' = ['\\', 'r'] from by decide]
    exact decodeBody_esc _ _ _ (by decide) (by decide)
  by_cases h5 : c = '\t'
  · subst h5
    rw [show escapeChar '\t' = ['\\', 't'] from by decide]
    exact decodeBody_esc _ _ _ (by decide) (by decide)
  by_cases h6 : c.toNat < 32 ∨ c = '<' ∨ c = '>' ∨ c = '&'
  · have hb : c.toNat < 256 := by
      rcases h6 with h | h | h | h
      · omega
      all_goals subst h; decide
    rw [escapeChar, if_neg h1, if_neg h2, if_neg h3, if_neg h4, if_neg h5, if_pos h6]
    show decodeBody ('\\' :: 'u' :: '0' :: '0'
      :: hexDigit (c.toNat / 16) :: hexDigit (c.toNat % 16) :: rest) = _
    have e1 : hexVal (hexDigit (c.toNat / 16)) = some (c.toNat / 16) :=
      hexVal_hexDigit _ (by omega)
    have e2 : hexVal (hexDigit (c.toNat % 16)) = some (c.toNat % 16) :=
      hexVal_hexDigit _ (by omega)
    have hh : hex4 '0' '0' (hexDigit (c.toNat / 16)) (hexDigit (c.toNat % 16))
        = some c.toNat := by
      simp only [hex4, show hexVal '0' = some 0 from by decide, e1, e2,
        Option.some_inj]
      omega
    rw [decodeBody_hex _ _ _ _ c.toNat rest hh (by omega), charOfCode_toNat]
  by_cases h7 : c.toNat = 8232 ∨ c.toNat = 8233
  · have h8 := charOfCode_toNat c
    rcases h7 with h | h
    · have hc : c = charOfCode 8232 := by rw [← h, h8]
      rw [hc, show escapeChar (charOfCode 8232)
          = ['\\', 'u', '2', '0', '2', '8'] from by decide]
      show decodeBody ('\\' :: 'u' :: '2' :: '0' :: '2' :: '8' :: rest) = _
      rw [decodeBody_hex _ _ _ _ 8232 rest (by decide) (by omega)]
    · have hc : c = charOfCode 8233 := by rw [← h, h8]
      rw [hc, show escapeChar (charOfCode 8233)
          = ['\\', 'u', '2', '0', '2', '9'] from by decide]
      show decodeBody ('\\' :: 'u' :: '2' :: '0' :: '2' :: '9' :: rest) = _
      rw [decodeBody_hex _ _ _ _ 8233 rest (by decide) (by omega)]
  · rw [escapeChar, if_neg h1, if_neg h2, if_neg h3, if_neg h4, if_neg h5,
      if_neg h6, if_neg h7]
    show decodeBody (c :: rest) = _
    exact decodeBody_plain c rest h1 h2 (fun hc => h6 (Or.inl hc))

theorem string_mk_data (s : String) : String.mk s.data = s := by
  cases s; rfl

theorem decodeBody_escBody (s rest : List Char) :
    decodeBody (escBody s ++ '"' :: rest) = some (s, rest) := by
  induction s with
  | nil => simpa [escBody] using decodeBody_quote rest
  | cons c cs ih =>
    have hsplit : escBody (c :: cs) ++ '"' :: rest
        = escapeChar c ++ (escBody cs ++ '"' :: rest) := by
      simp [escBody, List.append_assoc]
    rw [hsplit, decodeBody_escapeChar, ih]
    rfl

theorem skipWs_space (l : List Char) : skipWs (' ' :: l) = skipWs l := by
  simp [skipWs, List.dropWhile, isWs]

theorem skipWs_newline (l : List Char) : skipWs ('\n' :: l) = skipWs l := by
  simp [skipWs, List.dropWhile, isWs]

theorem skipWs_not_ws (c : Char) (l : List Char) (h : isWs c = false) :
    skipWs (c :: l) = c :: l := by
  simp [skipWs, List.dropWhile, h]

theorem skipWs_dquote (l : List Char) : skipWs ('"' :: l) = '"' :: l :=
  skipWs_not_ws _ _ (by decide)

theorem skipWs_colon (l : List Char) : skipWs (':' :: l) = ':' :: l :=
  skipWs_not_ws _ _ (by decide)

theorem skipWs_comma (l : List Char) : skipWs (',' :: l) = ',' :: l :=
  skipWs_not_ws _ _ (by decide)

theorem skipWs_rbrace (l : List Char) : skipWs ('}' :: l) = '}' :: l :=
  skipWs_not_ws _ _ (by decide)

theorem skipWs_nil : skipWs [] = [] := rfl

theorem parseMembers_emit (es : Table) :
    es ≠ [] → ∀ fuel, es.length ≤ fuel → ∀ l,
      skipWs l = skipWs (emitEntries es) → parseMembers fuel l = some (es, []) := by
  induction es with
  | nil => intro h; cases h rfl
  | cons e rest ih =>
    obtain ⟨k, v⟩ := e
    intro _ fuel hf l hl
    cases fuel with
    | zero => simp at hf
    | succ f =>
      cases rest with
      | nil =>
        have hsh : skipWs l = '"' :: (escBody k.data ++ '"' :: ':' :: ' ' :: '"' ::
            (escBody v.data ++ '"' :: '\n' :: '}' :: [])) := by
          rw [hl]
          simp only [emitEntries, encodeEntry, encodeString, List.cons_append,
            List.append_assoc, List.nil_append]
          rw [skipWs_space, skipWs_space, skipWs_dquote]
        simp only [parseMembers, hsh, if_pos rfl, if_true, decodeBody_escBody,
          skipWs_colon, skipWs_space, skipWs_dquote, skipWs_newline, skipWs_rbrace,
          string_mk_data]
        rw [if_neg (show ¬ ('}' : Char) = ',' by decide)]
      | cons r rs =>
        have hsh : skipWs l = '"' :: (escBody k.data ++ '"' :: ':' :: ' ' :: '"' ::
            (escBody v.data ++ '"' :: ',' :: '\n' :: emitEntries (r :: rs))) := by
          rw [hl]
          simp only [emitEntries, encodeEntry, encodeString, List.cons_append,
            List.append_assoc, List.nil_append]
          rw [skipWs_space, skipWs_space, skipWs_dquote]
        have hrec := ih (by simp) f (by
            have := hf
            simp only [List.length_cons] at this ⊢
            omega)
          ('\n' :: emitEntries (r :: rs)) (skipWs_newline _)
        simp only [parseMembers, hsh, if_pos rfl, if_true, decodeBody_escBody,
          skipWs_colon, skipWs_space, skipWs_dquote, skipWs_newline, skipWs_comma,
          string_mk_data, hrec, Option.map_some']

theorem skipWs_lbrace (l : List Char) : skipWs ('{' :: l) = '{' :: l :=
  skipWs_not_ws _ _ (by decide)

theorem skipWs_emit_shape (k v : String) (rest : Table) :
    skipWs (emitEntries ((k, v) :: rest))
      = '"' :: (escBody k.data ++ '"' :: ':' :: ' ' :: '"' ::
          (escBody v.data ++ '"' ::
            (match rest with
             | [] => '\n' :: '}' :: []
             | _ :: _ => ',' :: '\n' :: emitEntries rest))) := by
  cases rest with
  | nil =>
    simp only [emitEntries, encodeEntry, encodeString, List.cons_append,
      List.append_assoc, List.nil_append]
    rw [skipWs_space, skipWs_space, skipWs_dquote]
  | cons r rs =>
    simp only [emitEntries, encodeEntry, encodeString, List.cons_append,
      List.append_assoc, List.nil_append]
    rw [skipWs_space, skipWs_space, skipWs_dquote]

theorem emitEntries_length (es : Table) : es.length ≤ (emitEntries es).length := by
  induction es with
  | nil => simp [emitEntries]
  | cons e rest ih =>
    obtain ⟨k, v⟩ := e
    cases rest with
    | nil =>
      simp only [emitEntries, encodeEntry, encodeString, List.length_append,
        List.length_cons, List.length_nil]
      omega
    | cons r rs =>
      simp only [emitEntries, encodeEntry, encodeString, List.length_append,
        List.length_cons, List.length_nil] at ih ⊢
      omega

theorem parseObj_marshalIndent (t : Table) :
    parseObj (marshalIndent t) = some (sortPairs t) := by
  cases hs : sortPairs t with
  | nil =>
    have hm : marshalIndent t = ['{', '}'] := by
      simp only [marshalIndent, hs]
    rw [hm]
    decide
  | cons e es =>
    obtain ⟨k, v⟩ := e
    have hm : marshalIndent t = '{' :: '\n' :: emitEntries ((k, v) :: es) := by
      simp only [marshalIndent, hs]
    rw [hm]
    have hpm : parseMembers (('\n' :: emitEntries ((k, v) :: es)).length + 1)
        ('\n' :: emitEntries ((k, v) :: es)) = some ((k, v) :: es, []) := by
      apply parseMembers_emit ((k, v) :: es) (by simp)
      · have := emitEntries_length ((k, v) :: es)
        simp only [List.length_cons] at this ⊢
        omega
      · exact skipWs_newline _
    simp only [parseObj, skipWs_lbrace, if_pos rfl, if_true, skipWs_newline,
      skipWs_emit_shape, hpm, skipWs_nil]
    rw [if_neg (show ¬ ('"' : Char) = '}' by decide)]

theorem isNullDoc_nil : isNullDoc [] = false := rfl

theorem isNullDoc_marshalIndent (t : Table) :
    isNullDoc (marshalIndent t) = false := by
  cases hs : sortPairs t with
  | nil =>
    have hm : marshalIndent t = ['{', '}'] := by simp only [marshalIndent, hs]
    rw [hm]
    decide
  | cons e es =>
    obtain ⟨k, v⟩ := e
    have hm : marshalIndent t = '{' :: '\n' :: emitEntries ((k, v) :: es) := by
      simp only [marshalIndent, hs]
    rw [hm]
    simp only [emitEntries, encodeEntry, List.cons_append]
    simp only [isNullDoc, skipWs_lbrace]
    simp only [show (('{' : Char) == 'n') = false from by decide, Bool.false_and]

/-! ### Merging parsed members into the empty map -/

theorem upsert_append (t : Table) (k v : String) (h : lookupTab t k = none) :
    upsert t k v = t ++ [(k, v)] := by
  induction t with
  | nil => rfl
  | cons p rest ih =>
    by_cases hp : p.1 = k
    · rw [lookupTab, if_pos hp] at h
      cases h
    · rw [lookupTab, if_neg hp] at h
      simp [upsert, hp, ih h]

theorem lookupTab_append_of_none (t1 t2 : Table) (k : String)
    (h : lookupTab t1 k = none) :
    lookupTab (t1 ++ t2) k = lookupTab t2 k := by
  induction t1 with
  | nil => simp
  | cons p rest ih =>
    by_cases hp : p.1 = k
    · rw [lookupTab, if_pos hp] at h
      cases h
    · rw [lookupTab, if_neg hp] at h
      simp only [List.cons_append, lookupTab, if_neg hp]
      exact ih h

theorem lookupTab_eq_none_iff (t : Table) (k : String) :
    lookupTab t k = none ↔ k ∉ keysOf t := by
  induction t with
  | nil => simp [lookupTab, keysOf]
  | cons p rest ih =>
    by_cases hp : p.1 = k
    · simp [lookupTab, hp, keysOf]
    · simp only [lookupTab, if_neg hp, ih, keysOf, List.map_cons, List.mem_cons]
      constructor
      · intro hn hc
        rcases hc with hc | hc
        · exact hp hc.symm
        · exact hn hc
      · intro hn hc
        exact hn (Or.inr hc)

theorem foldl_upsert_append (es : Table) :
    ∀ acc : Table, (∀ p ∈ es, lookupTab acc p.1 = none) → NodupKeys es →
      es.foldl (fun a p => upsert a p.1 p.2) acc = acc ++ es := by
  induction es with
  | nil => intro acc _ _; simp
  | cons e rest ih =>
    intro acc hdisj hnd
    obtain ⟨k, v⟩ := e
    have h1 : lookupTab acc k = none := hdisj (k, v) (List.mem_cons_self _ _)
    have hknotin : k ∉ keysOf rest := by
      have := hnd
      unfold NodupKeys keysOf at this
      simp only [List.map_cons, List.nodup_cons] at this
      exact this.1
    have hnd' : NodupKeys rest := by
      have := hnd
      unfold NodupKeys keysOf at this ⊢
      simp only [List.map_cons, List.nodup_cons] at this
      exact this.2
    have hdisj' : ∀ p ∈ rest, lookupTab (acc ++ [(k, v)]) p.1 = none := by
      intro p hp
      rw [lookupTab_append_of_none _ _ _ (hdisj p (List.mem_cons_of_mem _ hp))]
      have hne : ¬ (k = p.1) := fun hh => hknotin (hh ▸ (by
        unfold keysOf
        exact List.mem_map_of_mem Prod.fst hp))
      simp [lookupTab, hne]
    rw [List.foldl_cons]
    rw [upsert_append acc k v h1, ih (acc ++ [(k, v)]) hdisj' hnd']
    simp

theorem sortPairs_perm (t : Table) : (sortPairs t).Perm t :=
  List.perm_insertionSort _ t

theorem NodupKeys_sortPairs (t : Table) (h : NodupKeys t) :
    NodupKeys (sortPairs t) := by
  unfold NodupKeys keysOf at h ⊢
  exact ((sortPairs_perm t).map Prod.fst).nodup_iff.mpr h

theorem foldl_upsert_nil (es : Table) (h : NodupKeys es) :
    es.foldl (fun a p => upsert a p.1 p.2) [] = es := by
  have := foldl_upsert_append es [] (fun p _ => rfl) h
  simpa using this

/-! ### Lookup is invariant under permutation (for nodup-key tables) -/

theorem lookupTab_eq_some_iff (t : Table) (h : NodupKeys t) (k v : String) :
    lookupTab t k = some v ↔ (k, v) ∈ t := by
  induction t with
  | nil => simp [lookupTab]
  | cons p rest ih =>
    obtain ⟨a, b⟩ := p
    have hknotin : a ∉ keysOf rest := by
      unfold NodupKeys keysOf at h
      simp only [List.map_cons, List.nodup_cons] at h
      exact h.1
    have hnd' : NodupKeys rest := by
      unfold NodupKeys keysOf at h ⊢
      simp only [List.map_cons, List.nodup_cons] at h
      exact h.2
    by_cases hp : a = k
    · subst hp
      rw [lookupTab, if_pos rfl]
      constructor
      · intro hv
        have hb := Option.some_inj.mp hv
        subst hb
        exact List.mem_cons_self _ _
      · intro hm
        rcases List.mem_cons.mp hm with hm | hm
        · rw [Prod.mk.injEq] at hm
          rw [hm.2]
        · exact absurd (List.mem_map_of_mem Prod.fst hm) hknotin
    · rw [lookupTab, if_neg hp, ih hnd']
      constructor
      · exact fun hm => List.mem_cons_of_mem _ hm
      · intro hm
        rcases List.mem_cons.mp hm with hm | hm
        · exfalso
          apply hp
          rw [Prod.mk.injEq] at hm
          exact hm.1.symm
        · exact hm

theorem lookupTab_perm (t t' : Table) (hperm : t.Perm t') (hnd : NodupKeys t)
    (k : String) : lookupTab t k = lookupTab t' k := by
  have hnd' : NodupKeys t' := by
    unfold NodupKeys keysOf at hnd ⊢
    exact (hperm.map Prod.fst).nodup_iff.mp hnd
  cases hl : lookupTab t k with
  | some v =>
    have hm : (k, v) ∈ t := (lookupTab_eq_some_iff t hnd k v).mp hl
    exact ((lookupTab_eq_some_iff t' hnd' k v).mpr (hperm.subset hm)).symm
  | none =>
    have hm : k ∉ keysOf t := (lookupTab_eq_none_iff t k).mp hl
    have hm' : k ∉ keysOf t' := fun hc =>
      hm ((hperm.map Prod.fst).mem_iff.mpr hc)
    exact ((lookupTab_eq_none_iff t' k).mpr hm').symm

/-- C1: calling `Save` and then `Load` on the same path yields a table
equal to the original mapping: for every snippet table with distinct keys
(what a Go map guarantees), reloading the saved bytes into a fresh manager
succeeds, and every name maps to the same body as before — including empty
bodies and bodies containing newlines. -/
theorem save_load_roundtrip (sm : SnippetManager) (home k : String)
    (h : NodupKeys sm.Snippets) :
    ((NewSnippetManager home).Load (some sm.Save)).toOption.map
        (fun sm2 => lookupTab sm2.Snippets k)
      = some (lookupTab sm.Snippets k) := by
  have hnull : isNullDoc (marshalIndent sm.Snippets) = false :=
    isNullDoc_marshalIndent _
  simp only [SnippetManager.Load, SnippetManager.Save, hnull, Bool.false_eq_true,
    if_false, parseObj_marshalIndent, NewSnippetManager]
  rw [foldl_upsert_nil _ (NodupKeys_sortPairs _ h)]
  simp only [Except.toOption, Option.map]
  exact congrArg some
    (lookupTab_perm _ _ (sortPairs_perm sm.Snippets) (NodupKeys_sortPairs _ h) k)

/-- Witness for `save_load_roundtrip`: a table with an empty body and a
multi-line body. -/
theorem save_load_roundtrip_witness :
    ((NewSnippetManager "/h").Load
        (some (SnippetManager.mk "p" [("b", ""), ("a", "x\ny")]).Save)).toOption.map
        (fun sm2 => lookupTab sm2.Snippets "a")
      = some (lookupTab [("b", ""), ("a", "x\ny")] "a") ∧
    lookupTab [("b", ""), ("a", "x\ny")] "a" = some "x\ny" :=
  ⟨save_load_roundtrip (SnippetManager.mk "p" [("b", ""), ("a", "x\ny")]) "/h" "a"
    (by decide), by decide⟩

/-- C6 as stated is false for its parse-failure half: `json.Unmarshal`
accepts the JSON literal `null` for a `map[string]string` target without
error (the map is set to nil — here, even discarding prior entries), and
accepts `null` as a member value (storing the empty string), so `Load`
succeeds on existing file content that cannot be parsed as a JSON object
of string-to-string pairs. -/
theorem null_loads_successfully :
    parseObj ("null".data) = none ∧
    (SnippetManager.mk "p" [("a", "1")]).Load (some ("null".data))
      = .ok (SnippetManager.mk "p" []) ∧
    (SnippetManager.mk "q" []).Load (some ("\x7b\"a\": null\x7d".data))
      = .ok (SnippetManager.mk "q" [("a", "")]) := by
  refine ⟨rfl, rfl, rfl⟩

/-- C6 amended: `Load` on a missing file resets the table to empty and
succeeds; file content that is neither a JSON object with string-or-null
member values nor the JSON literal `null` (the two shapes Go's decoder
accepts for the map) makes `Load` fail with the parse error. -/
theorem load_missing_or_malformed (sm : SnippetManager) (content : FileContent)
    (hobj : parseObj content = none) (hnull : isNullDoc content = false) :
    sm.Load none = .ok { sm with Snippets := [] } ∧
    sm.Load (some content) = .error .parseError := by
  constructor
  · rfl
  · simp only [SnippetManager.Load, hnull, Bool.false_eq_true, if_false, hobj]

/-- Witness for `load_missing_or_malformed` at concrete content that is
neither an object nor `null`. -/
theorem load_missing_or_malformed_witness :
    (SnippetManager.mk "p" [("a", "1")]).Load none
        = .ok (SnippetManager.mk "p" []) ∧
    (SnippetManager.mk "p" [("a", "1")]).Load (some ("not json".data))
        = .error .parseError :=
  load_missing_or_malformed _ _ (by decide) (by decide)

/-! ### The CLI entry point

`main` is modelled as a pure function from the HOME directory, the argument
vector after the program name (`os.Args[1:]`), the stdin lines, and the
persistence file's content (`none` = the file does not exist) to the exit
code, the lines printed to stdout and stderr, the final in-memory manager,
and the file content after the run.  `Add`'s prompt and the success notices
printed by `main` appear in the stdout list; `Save` always succeeds in the
pure model (write faults are I/O conditions outside it), as does reading
stdin. -/

/-- `printUsage`'s output lines. -/
def usageLines : List String :=
  ["Micro Snippet Manager - Manage code snippets for micro editor",
   "Usage:",
   "  snippetmanager list                 # List all snippets",
   "  snippetmanager add <name>           # Add snippet (input from stdin)",
   "  snippetmanager show <name>          # Show snippet content",
   "  snippetmanager delete <name>        # Delete snippet",
   "\nSnippets are stored in ~/.config/micro/snippets.json"]

/-- Outcome of one process invocation. -/
structure RunResult where
  exitCode : Nat
  stdout : List String
  stderr : List String
  sm : SnippetManager
  file : Option FileContent

/-- The `main` function (named `mainRun` because Lean reserves `main` for
entry points): load, dispatch on the subcommand, persist after a successful
mutation.  (The stderr text for a load failure stands in for Go's formatted
`%v` of the underlying json error.) -/
def mainRun (home : String) (args stdin : List String)
    (file : Option FileContent) : RunResult :=
  let sm0 := NewSnippetManager home
  match sm0.Load file with
  | .error _ => ⟨1, [], ["Error loading snippets: parse error"], sm0, file⟩
  | .ok sm =>
    match args with
    | [] => ⟨1, usageLines, [], sm, file⟩
    | cmd :: rest =>
      if cmd = "list" then ⟨0, sm.List, [], sm, file⟩
      else if cmd = "add" then
        match rest with
        | [] => ⟨1, ["Please provide snippet name."], [], sm, file⟩
        | name :: _ =>
          let sm2 := sm.Add name stdin
          ⟨0, ["Paste your snippet. End input with an empty line:",
               "Snippet \x27" ++ name ++ "\x27 added."], [], sm2, some sm2.Save⟩
      else if cmd = "show" then
        match rest with
        | [] => ⟨1, ["Please provide snippet name."], [], sm, file⟩
        | name :: _ => ⟨0, sm.Show name, [], sm, file⟩
      else if cmd = "delete" then
        match rest with
        | [] => ⟨1, ["Please provide snippet name."], [], sm, file⟩
        | name :: _ =>
          match sm.Delete name with
          | (some msg, _) => ⟨1, [], ["Error deleting snippet: " ++ msg], sm, file⟩
          | (none, sm2) =>
            ⟨0, ["Snippet \x27" ++ name ++ "\x27 deleted."], [], sm2, some sm2.Save⟩
      else ⟨1, usageLines, [], sm, file⟩

/-- C7: when `Show(name)` finds no entry, the not-found notice goes to
standard output and the process exits 0; when `Delete(name)` finds no
entry, the error goes to the error stream and the process exits non-zero. -/
theorem show_delete_asymmetry (home : String) (stdin : List String)
    (file : Option FileContent) (sm : SnippetManager) (name : String)
    (hload : (NewSnippetManager home).Load file = .ok sm)
    (habs : lookupTab sm.Snippets name = none) :
    (mainRun home ["show", name] stdin file).exitCode = 0 ∧
    (mainRun home ["show", name] stdin file).stdout
      = ["Snippet \x27" ++ name ++ "\x27 not found."] ∧
    (mainRun home ["show", name] stdin file).stderr = [] ∧
    (mainRun home ["delete", name] stdin file).exitCode ≠ 0 ∧
    (mainRun home ["delete", name] stdin file).stderr
      = ["Error deleting snippet: " ++ ("Snippet \x27" ++ name ++ "\x27 not found")] ∧
    (mainRun home ["delete", name] stdin file).stdout = [] := by
  have hshow : sm.Show name = ["Snippet \x27" ++ name ++ "\x27 not found."] := by
    simp [SnippetManager.Show, habs]
  have hdel : sm.Delete name
      = (some ("Snippet \x27" ++ name ++ "\x27 not found"), sm) := by
    simp [SnippetManager.Delete, habs]
  refine ⟨?_, ?_, ?_, ?_, ?_, ?_⟩ <;>
    simp [mainRun, hload, hshow, hdel]

/-- Witness for `show_delete_asymmetry`: empty store, name `"x"`. -/
theorem show_delete_asymmetry_witness :
    (mainRun "/h" ["show", "x"] [] none).exitCode = 0 ∧
    (mainRun "/h" ["show", "x"] [] none).stdout
      = ["Snippet \x27x\x27 not found."] ∧
    (mainRun "/h" ["delete", "x"] [] none).exitCode ≠ 0 ∧
    (mainRun "/h" ["delete", "x"] [] none).stderr
      = ["Error deleting snippet: Snippet \x27x\x27 not found"] := by
  have h := show_delete_asymmetry "/h" [] none (NewSnippetManager "/h") "x"
    (by rfl) (by rfl)
  exact ⟨h.1, h.2.1, h.2.2.2.1, h.2.2.2.2.1⟩

/-- C8 as stated is false: `show` invoked with no name argument exits
non-zero but prints the "please provide snippet name" notice, not the
usage text. -/
theorem missing_arg_prints_notice_not_usage :
    (mainRun "/h" ["show"] [] none).exitCode ≠ 0 ∧
    (mainRun "/h" ["show"] [] none).stdout = ["Please provide snippet name."] ∧
    (mainRun "/h" ["show"] [] none).stdout ≠ usageLines := by
  refine ⟨by decide, by decide, by decide⟩

/-- C8 amended: a missing required name argument for `add`/`show`/`delete`
prints the "please provide snippet name" notice and exits non-zero, while
an unknown command — or no command at all — prints the usage text and
exits non-zero. -/
theorem usage_error_behaviour (home : String) (stdin : List String)
    (file : Option FileContent) (sm : SnippetManager) (cmd : String)
    (hload : (NewSnippetManager home).Load file = .ok sm) :
    ((cmd = "add" ∨ cmd = "show" ∨ cmd = "delete") →
      (mainRun home [cmd] stdin file).stdout = ["Please provide snippet name."] ∧
      (mainRun home [cmd] stdin file).exitCode ≠ 0) ∧
    ((cmd ≠ "list" ∧ cmd ≠ "add" ∧ cmd ≠ "show" ∧ cmd ≠ "delete") →
      (mainRun home [cmd] stdin file).stdout = usageLines ∧
      (mainRun home [cmd] stdin file).exitCode ≠ 0) ∧
    ((mainRun home [] stdin file).stdout = usageLines ∧
      (mainRun home [] stdin file).exitCode ≠ 0) := by
  refine ⟨?_, ?_, ?_⟩
  · rintro (hc | hc | hc) <;> subst hc <;> simp [mainRun, hload]
  · rintro ⟨h1, h2, h3, h4⟩
    simp [mainRun, hload, h1, h2, h3, h4]
  · simp [mainRun, hload]

/-- Witness for `usage_error_behaviour`: `add` with no name, the unknown
command `frobnicate`, and no command at all, on a missing file. -/
theorem usage_error_behaviour_witness :
    (mainRun "/h" ["add"] [] none).stdout = ["Please provide snippet name."] ∧
    (mainRun "/h" ["add"] [] none).exitCode ≠ 0 ∧
    (mainRun "/h" ["frobnicate"] [] none).stdout = usageLines ∧
    (mainRun "/h" ["frobnicate"] [] none).exitCode ≠ 0 ∧
    (mainRun "/h" [] [] none).stdout = usageLines ∧
    (mainRun "/h" [] [] none).exitCode ≠ 0 := by
  have ha := usage_error_behaviour "/h" [] none (NewSnippetManager "/h") "add" rfl
  have hf := usage_error_behaviour "/h" [] none (NewSnippetManager "/h")
    "frobnicate" rfl
  have h1 := ha.1 (Or.inl rfl)
  have h2 := hf.2.1 ⟨by decide, by decide, by decide, by decide⟩
  exact ⟨h1.1, h1.2, h2.1, h2.2, hf.2.2.1, hf.2.2.2⟩

/-! ### Which keys a run can put in the table -/

theorem keysOf_upsert (t : Table) (k0 v k : String)
    (h : k ∈ keysOf (upsert t k0 v)) : k ∈ keysOf t ∨ k = k0 := by
  induction t with
  | nil =>
    simp only [upsert, keysOf, List.map_cons, List.map_nil, List.mem_singleton] at h
    exact Or.inr h
  | cons p rest ih =>
    by_cases hp : p.1 = k0
    · simp only [upsert, if_pos hp, keysOf, List.map_cons, List.mem_cons] at h ⊢
      rcases h with h | h
      · exact Or.inr h
      · exact Or.inl (Or.inr h)
    · simp only [upsert, if_neg hp, keysOf, List.map_cons, List.mem_cons] at h ⊢
      rcases h with h | h
      · exact Or.inl (Or.inl h)
      · rcases ih h with h | h
        · exact Or.inl (Or.inr h)
        · exact Or.inr h

theorem keysOf_eraseKey (t : Table) (k0 k : String)
    (h : k ∈ keysOf (eraseKey t k0)) : k ∈ keysOf t := by
  induction t with
  | nil => simpa [eraseKey, keysOf] using h
  | cons p rest ih =>
    by_cases hp : p.1 = k0
    · simp only [eraseKey, if_pos hp] at h
      simp only [keysOf, List.map_cons, List.mem_cons]
      exact Or.inr (ih h)
    · simp only [eraseKey, if_neg hp, keysOf, List.map_cons, List.mem_cons] at h ⊢
      rcases h with h | h
      · exact Or.inl h
      · exact Or.inr (ih h)

theorem keysOf_foldl_upsert (es : Table) :
    ∀ acc k, k ∈ keysOf (es.foldl (fun a p => upsert a p.1 p.2) acc) →
      k ∈ keysOf acc ∨ k ∈ es.map Prod.fst := by
  induction es with
  | nil => intro acc k h; exact Or.inl h
  | cons e rest ih =>
    intro acc k h
    rw [List.foldl_cons] at h
    rcases ih (upsert acc e.1 e.2) k h with h | h
    · rcases keysOf_upsert _ _ _ _ h with h | h
      · exact Or.inl h
      · right
        simp only [List.map_cons, List.mem_cons]
        exact Or.inl h
    · right
      simp only [List.map_cons, List.mem_cons]
      exact Or.inr h

theorem load_keys_nonempty (sm0 : SnippetManager) (file : Option FileContent)
    (hfile : ∀ content es, file = some content → parseObj content = some es →
      ∀ p ∈ es, p.1 ≠ "")
    (h0 : ∀ k ∈ keysOf sm0.Snippets, k ≠ "")
    (sm : SnippetManager) (hok : sm0.Load file = .ok sm) :
    ∀ k ∈ keysOf sm.Snippets, k ≠ "" := by
  cases file with
  | none =>
    simp only [SnippetManager.Load, Except.ok.injEq] at hok
    rw [← hok]
    simp [keysOf]
  | some content =>
    by_cases hn : isNullDoc content = true
    · simp [SnippetManager.Load, hn] at hok
      rw [← hok]
      simp [keysOf]
    · have hn2 : isNullDoc content = false := by
        revert hn
        cases isNullDoc content <;> simp
      simp only [SnippetManager.Load, hn2, Bool.false_eq_true, if_false] at hok
      cases hp : parseObj content with
      | none => rw [hp] at hok; cases hok
      | some es =>
      rw [hp] at hok
      simp only [Except.ok.injEq] at hok
      rw [← hok]
      intro k hk
      rcases keysOf_foldl_upsert es sm0.Snippets k hk with h | h
      · exact h0 k h
      · obtain ⟨p, hpm, hpk⟩ := List.mem_map.mp h
        rw [← hpk]
        exact hfile content es rfl hp p hpm

/-- C9 as stated is false: the CLI accepts the empty string as a name
argument, so one `add ""` invocation produces a table containing the empty
string as a snippet name. -/
theorem empty_name_reachable :
    lookupTab (mainRun "/h" ["add", ""] [] none).sm.Snippets "" = some ""
      ∧ "" ∈ keysOf (mainRun "/h" ["add", ""] [] none).sm.Snippets := by
  refine ⟨by decide, by decide⟩

/-- C9 amended: the CLI introduces no empty-string key of its own — after
any single invocation whose `add` name argument (if present) is non-empty
and whose loaded file parses only to entries with non-empty names, every
key of the resulting table is non-empty.  (As stated the claim fails, since
`add` with an empty name argument is accepted; see the counterexample.) -/
theorem cli_keys_nonempty (home : String) (args stdin : List String)
    (file : Option FileContent)
    (hargs : ∀ name rest, args = "add" :: name :: rest → name ≠ "")
    (hfile : ∀ content es, file = some content → parseObj content = some es →
      ∀ p ∈ es, p.1 ≠ "") :
    ∀ k ∈ keysOf (mainRun home args stdin file).sm.Snippets, k ≠ "" := by
  cases hres : (NewSnippetManager home).Load file with
  | error e =>
    intro k hk
    simp only [mainRun, hres] at hk
    simp [NewSnippetManager, keysOf] at hk
  | ok sm =>
    have hkeys : ∀ k ∈ keysOf sm.Snippets, k ≠ "" :=
      load_keys_nonempty (NewSnippetManager home) file hfile
        (by simp [NewSnippetManager, keysOf]) sm hres
    cases args with
    | nil =>
      intro k hk
      simp only [mainRun, hres] at hk
      exact hkeys k hk
    | cons cmd rest =>
      by_cases h1 : cmd = "list"
      · intro k hk
        simp [mainRun, hres, h1] at hk
        exact hkeys k hk
      by_cases h2 : cmd = "add"
      · subst h2
        cases rest with
        | nil =>
          intro k hk
          simp [mainRun, hres] at hk
          exact hkeys k hk
        | cons name rs =>
          have hname : name ≠ "" := hargs name rs rfl
          intro k hk
          simp [mainRun, hres, SnippetManager.Add] at hk
          rcases keysOf_upsert _ _ _ _ hk with h | h
          · exact hkeys k h
          · rw [h]; exact hname
      by_cases h3 : cmd = "show"
      · subst h3
        cases rest with
        | nil =>
          intro k hk
          simp [mainRun, hres] at hk
          exact hkeys k hk
        | cons name rs =>
          intro k hk
          simp [mainRun, hres] at hk
          exact hkeys k hk
      by_cases h4 : cmd = "delete"
      · subst h4
        cases rest with
        | nil =>
          intro k hk
          simp [mainRun, hres] at hk
          exact hkeys k hk
        | cons name rs =>
          by_cases hd : lookupTab sm.Snippets name = none
          · have hDel : sm.Delete name
                = (some ("Snippet \x27" ++ name ++ "\x27 not found"), sm) := by
              simp [SnippetManager.Delete, hd]
            intro k hk
            simp [mainRun, hres, hDel] at hk
            exact hkeys k hk
          · have hDel : sm.Delete name
                = (none, { sm with Snippets := eraseKey sm.Snippets name }) := by
              simp [SnippetManager.Delete, hd]
            intro k hk
            simp [mainRun, hres, hDel] at hk
            exact hkeys k (keysOf_eraseKey _ _ _ hk)
      · intro k hk
        simp [mainRun, hres, h1, h2, h3, h4] at hk
        exact hkeys k hk

/-- Witness for `cli_keys_nonempty`: after `add a` with body `x` on a
missing file, the key `a` is in the table and the theorem yields its
non-emptiness. -/
theorem cli_keys_nonempty_witness :
    "a" ∈ keysOf (mainRun "/h" ["add", "a"] ["x"] none).sm.Snippets ∧
    "a" ≠ "" :=
  ⟨by decide, cli_keys_nonempty "/h" ["add", "a"] ["x"] none
    (fun name rest hh => by cases hh; decide)
    (fun content es hh => by cases hh) "a" (by decide)⟩
